import Mathlib

/-!
Verification of the orchestration engine in codector/engine.py.

The engine's operations are shallowly embedded as pure Lean functions.
Python objects mutated in place (the result objects stored in the
_results list) are modelled by threading the list of result values
through each operation explicitly: an operation returns both the new
state of the list and its return value, and an in-place mutation of an
object aliased by the list shows up as a change of the list entry.
-/

namespace Codector

/-- A search result as produced by a backend adapter: a file path plus a
backend-specific payload.  The payload contents are opaque to the engine, so
they are modelled as a list of naturals.  The source class (defined in the
backend source modules) exposes an extend operation that appends the other
result's payload to this one in place. -/
structure SearchResult where
  path : String
  payload : List Nat
deriving DecidableEq

/-- Default result used for out-of-range list reads (never reached for the
indices the merge produces, which all point into the list). -/
def dummyResult : SearchResult := ⟨"", []⟩

/-- Modelled from the spec: the extend operation of the backend result class
(defined in codector/sources, outside the embedded file) merges another
result into this one by appending its payload in place, never overwriting. -/
def extendResult (r other : SearchResult) : SearchResult :=
  { r with payload := r.payload ++ other.payload }

/-- In-place payload extension of the element at index j of the working list:
the model of a Python mutation of the object aliased at that position. -/
def extendAt : List SearchResult → Nat → List Nat → List SearchResult
  | [], _, _ => []
  | r :: rs, 0, pl => { r with payload := r.payload ++ pl } :: rs
  | r :: rs, j + 1, pl => r :: extendAt rs j pl

/-- First index stored for a path in the merged_results dict, scanning in
insertion order. -/
def lookupIdx : List (String × Nat) → String → Option Nat
  | [], _ => none
  | (p, j) :: rest, q => if p = q then some j else lookupIdx rest q

/-- The loop of get_results: merged_results maps each path to the index of
the first result object seen for it (Python stores a reference to the
object; the model stores the object's index into the working list).  A
later result for a known path extends that first object in place. -/
def grLoop : List SearchResult → List SearchResult → Nat → List (String × Nat) →
    List SearchResult × List (String × Nat)
  | arr, [], _, order => (arr, order)
  | arr, r :: rest, i, order =>
    match lookupIdx order r.path with
    | none => grLoop arr rest (i + 1) (order ++ [(r.path, i)])
    | some j => grLoop (extendAt arr j r.payload) rest (i + 1) order

/-- Values of merged_results in insertion order, read from the working list. -/
def outputOf (arr : List SearchResult) (order : List (String × Nat)) :
    List SearchResult :=
  order.map (fun pj => arr.getD pj.2 dummyResult)

/-- get_results of engine.py: iterates over the accumulated _results,
stores the first result seen for each path and extends it in place with
every later result for the same path, then returns the merged values.
Returns (state of _results after the call, returned list). -/
def get_results (results : List SearchResult) :
    List SearchResult × List SearchResult :=
  let st := grLoop results results 0 []
  (st.1, outputOf st.1 st.2)

/-- Spec-level merge (for refinement comparison, following the spec's words):
one entry per distinct path in first-seen order; the first result for a
path becomes the entry and each later result's payload is appended. -/
def extendEntry : List SearchResult → String → List Nat → List SearchResult
  | [], _, _ => []
  | e :: es, p, pl =>
    if e.path = p then { e with payload := e.payload ++ pl } :: es
    else e :: extendEntry es p pl

/-- Whether the accumulator already has an entry for path p. -/
def hasPath (acc : List SearchResult) (p : String) : Bool :=
  acc.any (fun e => e.path = p)

/-- Spec-level merge loop over the remaining results. -/
def mergeAux : List SearchResult → List SearchResult → List SearchResult
  | acc, [] => acc
  | acc, r :: rest =>
    if hasPath acc r.path then mergeAux (extendEntry acc r.path r.payload) rest
    else mergeAux (acc ++ [r]) rest

/-- Spec-level merge of an accumulated result list. -/
def mergeSpec (rs : List SearchResult) : List SearchResult := mergeAux [] rs

/-! ### The analysis driver -/

/-- A unit of indexable content: the engine only reads its stable id. -/
structure Chunk where
  chunk_id : String
deriving DecidableEq

/-- A file as the repository collaborator hands it to the driver: an ordered
finite sequence of chunks. -/
structure File where
  chunks : List Chunk
deriving DecidableEq

/-- get_chunks of the file collaborator: enumerates the file's chunks. -/
def File.get_chunks (f : File) : List Chunk := f.chunks

/-- An adapter's cache_chunk operation: indexes a chunk, possibly failing. -/
def CacheChunkFn : Type := Chunk → Except Unit Unit

/-- _add_to_collection of engine.py: dispatches the chunk to each registered
adapter in order by calling its cache_chunk operation.  There is no handler
around the calls, so a raised error propagates at once.  Returns the outcome
together with how many adapters actually received the chunk. -/
def add_to_collection : List CacheChunkFn → Chunk → Except Unit Unit × Nat
  | [], _ => (Except.ok (), 0)
  | a :: rest, c =>
    match a c with
    | Except.error e => (Except.error e, 1)
    | Except.ok _ =>
      let r := add_to_collection rest c
      (r.1, r.2 + 1)

/-- The analysis window bound of engine.py, line 110:
max(40, int(len(top_files) * 0.2)).  Python's int() truncates toward zero
and float(total) * 0.2 floors to total div 5 for every list length
representable without loss (below 2 to the 53rd), so the bound is
max 40 (total / 5) with Nat division. -/
def minimum_files_to_analyze (total : Nat) : Nat := max 40 (total / 5)

/-- The chunks gathered before the indexing loop: all chunks of the files in
the analysis window, in ranking order then chunk order. -/
def chunks_to_process (files : List File) : List Chunk :=
  (files.take (minimum_files_to_analyze files.length)).map File.get_chunks
    |>.flatten

/-- The indexing loop of _create_vector_embeddings: for each chunk in order,
skip it when its id is already in chunks_already_analyzed, otherwise dispatch
it to every adapter and only then add its id to the set.  An error raised by
a dispatch propagates immediately, carrying the failing chunk's id; the state
of the analyzed set at that moment is kept (the cache object was mutated in
place).  Returns (outcome, analyzed set, number of cache_chunk calls). -/
def cveLoop : List Chunk → List String → List CacheChunkFn →
    Except String Unit × List String × Nat
  | [], analyzed, _ => (Except.ok (), analyzed, 0)
  | c :: rest, analyzed, ads =>
    if c.chunk_id ∈ analyzed then cveLoop rest analyzed ads
    else
      match add_to_collection ads c with
      | (Except.error _, n) => (Except.error c.chunk_id, analyzed, n)
      | (Except.ok _, n) =>
        let r := cveLoop rest (c.chunk_id :: analyzed) ads
        (r.1, r.2.1, n + r.2.2)

/-- _create_vector_embeddings of engine.py: builds the chunk list from the
analysis window over the ranked files and runs the indexing loop against the
current chunks_already_analyzed set. -/
def create_vector_embeddings (files : List File) (analyzed : List String)
    (ads : List CacheChunkFn) : Except String Unit × List String × Nat :=
  cveLoop (chunks_to_process files) analyzed ads

/-- The spec's words for the analysis window bound, for comparison:
max(40, ceil(0.2 * total)), with ceil(0.2 * total) = (total + 4) / 5. -/
def spec_window (total : Nat) : Nat := max 40 ((total + 4) / 5)

/-! ### The query orchestrator -/

/-- An adapter's fetch operation: maps the query string to a result list,
possibly raising. -/
def FetchFn : Type := String → Except Unit (List SearchResult)

/-- The inline loop over the blocking adapters: each result list is appended
to _results as it returns; a raised error propagates at once, keeping the
extensions made so far. -/
def fetchSyncs : List FetchFn → String → Except Unit Unit × List SearchResult
  | [], _ => (Except.ok (), [])
  | a :: rest, q =>
    match a q with
    | Except.error e => (Except.error e, [])
    | Except.ok r =>
      let rec' := fetchSyncs rest q
      (rec'.1, r ++ rec'.2)

/-- The awaited gather over the background adapters: all result lists in
submission order when every task returns, or the first raised error, in
which case none of the background results are appended. -/
def gatherAsyncs : List FetchFn → String → Except Unit (List SearchResult)
  | [], _ => Except.ok []
  | a :: rest, q =>
    match a q with
    | Except.error e => Except.error e
    | Except.ok r =>
      match gatherAsyncs rest q with
      | Except.error e => Except.error e
      | Except.ok rs => Except.ok (r ++ rs)

/-- fetch of engine.py: resets _results to the empty list, then extends it
with each blocking adapter's results inline, then awaits the background
tasks and extends it with their results.  The old contents of _results play
no part: the reset is the first statement of the method.  Returns the
outcome and the state of _results when control returns to the caller. -/
def fetch (syncs asyncs : List FetchFn) (q : String)
    (_oldResults : List SearchResult) : Except Unit Unit × List SearchResult :=
  let results0 : List SearchResult := []
  match fetchSyncs syncs q with
  | (Except.error e, acc) => (Except.error e, results0 ++ acc)
  | (Except.ok _, acc) =>
    match gatherAsyncs asyncs q with
    | Except.error e => (Except.error e, results0 ++ acc)
    | Except.ok rs => (Except.ok (), results0 ++ acc ++ rs)

/-! ### The engine state and its operations -/

/-- The mutable state of an Engine instance that the claims observe. -/
structure EngineState where
  query_string : String
  results : List SearchResult
  chunks_already_analyzed : List String
deriving DecidableEq

/-- query of engine.py: stores the pending query string. -/
def Engine.query (s : EngineState) (q : String) : EngineState :=
  { s with query_string := q }

/-- fetch of engine.py acting on the engine state. -/
def Engine.fetch (syncs asyncs : List FetchFn) (s : EngineState) :
    Except Unit Unit × EngineState :=
  let r := Codector.fetch syncs asyncs s.query_string s.results
  (r.1, { s with results := r.2 })

/-- get_results of engine.py acting on the engine state: the merge reads and
mutates the result objects held by _results. -/
def Engine.get_results (s : EngineState) : EngineState × List SearchResult :=
  let r := Codector.get_results s.results
  ({ s with results := r.1 }, r.2)

/-- analyze_codebase of engine.py acting on the engine state, given the files
the repository collaborator ranks for this run.  The repository walk itself
mutates only the commit-tracking fields, which no claim observes. -/
def Engine.analyze_codebase (files : List File) (ads : List CacheChunkFn)
    (s : EngineState) : Except String Unit × EngineState × Nat :=
  let r := create_vector_embeddings files s.chunks_already_analyzed ads
  (r.1, { s with chunks_already_analyzed := r.2.1 }, r.2.2)

/-! ### The project identity hash

_get_project_hash hashes an interpolated text with hashlib.sha256 and uses
the hex digest to name the cache folder.  SHA-256 is implemented here over
lists of byte values, with 32-bit words as naturals reduced mod 2 to the
32nd, following FIPS 180-4; the reference digests of the concrete inputs
below match hashlib. -/

/-- Decimal digits of a natural number, most significant first (fuel-based;
fuel n + 1 suffices for n). -/
def natDigits : Nat → Nat → List Nat
  | 0, _ => []
  | fuel + 1, n => if n < 10 then [n] else natDigits fuel (n / 10) ++ [n % 10]

/-- Python str() of a nonnegative int: its decimal digit characters. -/
def natDecimal (n : Nat) : List Char :=
  (natDigits (n + 1) n).map (fun d => Char.ofNat (48 + d))

/-- Truncation to a 32-bit word. -/
def w32 (n : Nat) : Nat := n % 4294967296

/-- 32-bit right rotation. -/
def rotr (x n : Nat) : Nat := w32 ((x >>> n) ||| (x <<< (32 - n)))

/-- The choose function of SHA-256. -/
def shaCh (x y z : Nat) : Nat := (x &&& y) ^^^ ((x ^^^ 4294967295) &&& z)

/-- The majority function of SHA-256. -/
def shaMaj (x y z : Nat) : Nat := (x &&& y) ^^^ (x &&& z) ^^^ (y &&& z)

/-- Upper-case sigma-0 of SHA-256. -/
def bigSigma0 (x : Nat) : Nat := rotr x 2 ^^^ rotr x 13 ^^^ rotr x 22

/-- Upper-case sigma-1 of SHA-256. -/
def bigSigma1 (x : Nat) : Nat := rotr x 6 ^^^ rotr x 11 ^^^ rotr x 25

/-- Lower-case sigma-0 of SHA-256. -/
def smallSigma0 (x : Nat) : Nat := rotr x 7 ^^^ rotr x 18 ^^^ (x >>> 3)

/-- Lower-case sigma-1 of SHA-256. -/
def smallSigma1 (x : Nat) : Nat := rotr x 17 ^^^ rotr x 19 ^^^ (x >>> 10)

/-- The 64 round constants of SHA-256. -/
def sha256K : List Nat :=
  [1116352408, 1899447441, 3049323471, 3921009573, 961987163,
   1508970993, 2453635748, 2870763221, 3624381080, 310598401,
   607225278, 1426881987, 1925078388, 2162078206, 2614888103,
   3248222580, 3835390401, 4022224774, 264347078, 604807628,
   770255983, 1249150122, 1555081692, 1996064986, 2554220882,
   2821834349, 2952996808, 3210313671, 3336571891, 3584528711,
   113926993, 338241895, 666307205, 773529912, 1294757372,
   1396182291, 1695183700, 1986661051, 2177026350, 2456956037,
   2730485921, 2820302411, 3259730800, 3345764771, 3516065817,
   3600352804, 4094571909, 275423344, 430227734, 506948616,
   659060556, 883997877, 958139571, 1322822218, 1537002063,
   1747873779, 1955562222, 2024104815, 2227730452, 2361852424,
   2428436474, 2756734187, 3204031479, 3329325298]

/-- The initial hash state of SHA-256. -/
def sha256H0 : List Nat :=
  [1779033703, 3144134277, 1013904242,
   2773480762, 1359893119, 2600822924,
   528734635, 1541459225]

/-- SHA-256 message padding: append the 0x80 byte, then zeros up to 56 mod
64, then the bit length as 8 big-endian bytes. -/
def sha256Pad (msg : List Nat) : List Nat :=
  let L := msg.length
  let k := (119 - (L % 64)) % 64
  msg ++ [128] ++ List.replicate k 0 ++
    (List.range 8).map (fun i => ((8 * L) >>> (56 - 8 * i)) % 256)

/-- Big-endian grouping of bytes into 32-bit words. -/
def bytesToWords : List Nat → List Nat
  | b0 :: b1 :: b2 :: b3 :: rest =>
    (((b0 * 256 + b1) * 256 + b2) * 256 + b3) :: bytesToWords rest
  | _ => []

/-- Split the padded byte list into 16-word blocks (fuel-based). -/
def toBlocks : Nat → List Nat → List (List Nat)
  | 0, _ => []
  | _ + 1, [] => []
  | fuel + 1, b :: bytes =>
    bytesToWords ((b :: bytes).take 64) :: toBlocks fuel ((b :: bytes).drop 64)

/-- Extend the 16 block words to the 64-entry message schedule. -/
def extendSchedule : Nat → List Nat → List Nat
  | 0, ws => ws
  | n + 1, ws =>
    let t := ws.length
    let w := w32 (smallSigma1 (ws.getD (t - 2) 0) + ws.getD (t - 7) 0 +
      smallSigma0 (ws.getD (t - 15) 0) + ws.getD (t - 16) 0)
    extendSchedule n (ws ++ [w])

/-- One compression round on the eight working variables. -/
def compressRound (k w : Nat) : List Nat → List Nat
  | [a, b, c, d, e, f, g, h] =>
    let t1 := w32 (h + bigSigma1 e + shaCh e f g + k + w)
    let t2 := w32 (bigSigma0 a + shaMaj a b c)
    [w32 (t1 + t2), a, b, c, w32 (d + t1), e, f, g]
  | st => st

/-- Compress one 16-word block into the running hash state. -/
def compressBlock (hs block : List Nat) : List Nat :=
  let ws := extendSchedule 48 block
  let fin := (sha256K.zip ws).foldl (fun st kw => compressRound kw.1 kw.2 st) hs
  (hs.zip fin).map (fun p => w32 (p.1 + p.2))

/-- SHA-256 of a byte list, as eight 32-bit words. -/
def sha256Words (msg : List Nat) : List Nat :=
  (toBlocks (sha256Pad msg).length (sha256Pad msg)).foldl compressBlock sha256H0

/-- A hex digit character. -/
def hexChar (n : Nat) : Char := Char.ofNat (if n < 10 then 48 + n else 87 + n)

/-- Lower-case hex of one 32-bit word. -/
def wordHex (w : Nat) : List Char :=
  (List.range 8).map (fun i => hexChar ((w >>> (28 - 4 * i)) % 16))

/-- hexdigest of a word-list digest. -/
def hexdigest (ws : List Nat) : String := String.mk ((ws.map wordHex).flatten)

/-- The cache format version constant of engine.py. -/
def CACHE_FORMAT_VERSION : Nat := 15

/-- The interpolated triple-quoted f-string hashed by _get_project_hash:
newline, eight spaces, the version line, newline, eight spaces, the path
line, newline, eight spaces. -/
def hashText (version : Nat) (normalized_path : String) : String :=
  "\n        Cache version: " ++ String.mk (natDecimal version) ++
    "\n        Normalized path: " ++ normalized_path ++ "\n        "

/-- text.encode() for the hashed text: the inputs in question are ASCII,
where the UTF-8 byte is the code point. -/
def strBytes (s : String) : List Nat := s.data.map Char.toNat

/-- _get_project_hash of engine.py, as a function of the version constant
and the normalized absolute path: the sha256 hex digest of the text. -/
def get_project_hash (version : Nat) (normalized_path : String) : String :=
  hexdigest (sha256Words (strBytes (hashText version normalized_path)))

/-- _get_cache_folder of engine.py: the per-user cache root joined with the
project identity hash. -/
def get_cache_folder (cache_root : String) (version : Nat)
    (normalized_path : String) : String :=
  cache_root ++ "/" ++ get_project_hash version normalized_path

/-! Basic facts about the in-place extension and the index lookup. -/

theorem extendAt_length (arr : List SearchResult) (j : Nat) (pl : List Nat) :
    (extendAt arr j pl).length = arr.length := by
  induction arr generalizing j with
  | nil => rfl
  | cons r rs ih =>
    cases j with
    | zero => rfl
    | succ j => simp [extendAt, ih]

theorem extendAt_getD_ne (arr : List SearchResult) (j k : Nat) (pl : List Nat)
    (h : k ≠ j) : (extendAt arr j pl).getD k dummyResult = arr.getD k dummyResult := by
  induction arr generalizing j k with
  | nil => rfl
  | cons r rs ih =>
    cases j with
    | zero =>
      cases k with
      | zero => exact absurd rfl h
      | succ k => rfl
    | succ j =>
      cases k with
      | zero => rfl
      | succ k =>
        simp only [extendAt, List.getD_cons_succ]
        exact ih j k (fun hk => h (by omega))

theorem extendAt_getD_self (arr : List SearchResult) (j : Nat) (pl : List Nat)
    (h : j < arr.length) :
    (extendAt arr j pl).getD j dummyResult =
      { arr.getD j dummyResult with
        payload := (arr.getD j dummyResult).payload ++ pl } := by
  induction arr generalizing j with
  | nil => simp at h
  | cons r rs ih =>
    cases j with
    | zero => rfl
    | succ j =>
      simp only [extendAt, List.getD_cons_succ]
      exact ih j (by simpa using h)

theorem extendAt_path (arr : List SearchResult) (j k : Nat) (pl : List Nat) :
    ((extendAt arr j pl).getD k dummyResult).path =
      (arr.getD k dummyResult).path := by
  by_cases hk : k = j
  · subst hk
    by_cases h : k < arr.length
    · rw [extendAt_getD_self arr k pl h]
    · have h1 : arr.length ≤ k := by omega
      have h2 : (extendAt arr k pl).length ≤ k := by rw [extendAt_length]; omega
      rw [List.getD_eq_getElem?_getD, List.getD_eq_getElem?_getD,
        List.getElem?_eq_none h1, List.getElem?_eq_none h2]
  · rw [extendAt_getD_ne arr j k pl hk]

theorem extendAt_drop (arr : List SearchResult) (j i : Nat) (pl : List Nat)
    (h : j < i) : (extendAt arr j pl).drop i = arr.drop i := by
  induction arr generalizing j i with
  | nil => rfl
  | cons r rs ih =>
    cases j with
    | zero =>
      cases i with
      | zero => omega
      | succ i => rfl
    | succ j =>
      cases i with
      | zero => omega
      | succ i => simpa [extendAt] using ih j i (by omega)

theorem lookupIdx_none (order : List (String × Nat)) (q : String)
    (h : lookupIdx order q = none) : ∀ pj ∈ order, pj.1 ≠ q := by
  induction order with
  | nil => intro pj hpj; simp at hpj
  | cons x rest ih =>
    intro pj hpj
    simp only [lookupIdx] at h
    by_cases hx : x.1 = q
    · simp [hx] at h
    · rcases List.mem_cons.mp hpj with h1 | h1
      · subst h1; exact hx
      · exact ih (by simpa [hx] using h) pj h1

theorem lookupIdx_mem (order : List (String × Nat)) (q : String) (j : Nat)
    (h : lookupIdx order q = some j) : (q, j) ∈ order := by
  induction order with
  | nil => simp [lookupIdx] at h
  | cons x rest ih =>
    obtain ⟨p, k⟩ := x
    simp only [lookupIdx] at h
    by_cases hx : p = q
    · subst hx
      rw [if_pos rfl] at h
      injection h with h
      subst h
      exact List.mem_cons_self _ _
    · exact List.mem_cons_of_mem _ (ih (by simpa [hx] using h))

/-! How the read-back of merged_results reacts to an in-place extension. -/

theorem outputOf_append (arr : List SearchResult) (order : List (String × Nat))
    (p : String) (i : Nat) :
    outputOf arr (order ++ [(p, i)]) =
      outputOf arr order ++ [arr.getD i dummyResult] := by
  simp [outputOf]

theorem outputOf_extendAt_not_mem (arr : List SearchResult) (j : Nat)
    (pl : List Nat) (order : List (String × Nat))
    (h : ∀ pj ∈ order, pj.2 ≠ j) :
    outputOf (extendAt arr j pl) order = outputOf arr order := by
  induction order with
  | nil => rfl
  | cons x rest ih =>
    simp only [outputOf, List.map_cons]
    rw [extendAt_getD_ne arr j x.2 pl (h x (List.mem_cons_self _ _))]
    have := ih (fun pj hpj => h pj (List.mem_cons_of_mem x hpj))
    simpa [outputOf] using this

theorem outputOf_extendAt (order : List (String × Nat))
    (arr : List SearchResult) (j : Nat) (p : String) (pl : List Nat)
    (hmem : (p, j) ∈ order)
    (hfst : (order.map Prod.fst).Nodup)
    (hsnd : (order.map Prod.snd).Nodup)
    (hpath : ∀ pj ∈ order, (arr.getD pj.2 dummyResult).path = pj.1)
    (hlen : j < arr.length) :
    outputOf (extendAt arr j pl) order =
      extendEntry (outputOf arr order) p pl := by
  induction order with
  | nil => simp at hmem
  | cons x rest ih =>
    obtain ⟨q, k⟩ := x
    have hqk : (arr.getD k dummyResult).path = q :=
      hpath (q, k) (List.mem_cons_self _ _)
    have hfst' := hfst
    rw [List.map_cons, List.nodup_cons] at hfst'
    have hsnd' := hsnd
    rw [List.map_cons, List.nodup_cons] at hsnd'
    rcases List.mem_cons.mp hmem with hx | hx
    · -- the head of the dict is the entry for path p
      injection hx with hx1 hx2
      subst hx1; subst hx2
      simp only [outputOf, List.map_cons, extendEntry, hqk, if_pos rfl]
      refine List.cons_eq_cons.mpr ⟨?_, ?_⟩
      · rw [extendAt_getD_self arr j pl hlen]
        have hqk' : (arr[j]?.getD dummyResult).path = p := by
          simpa [List.getD_eq_getElem?_getD] using hqk
        simp [hqk']
      · have hrest : ∀ pj ∈ rest, pj.2 ≠ j := by
          intro pj hpj hc
          have hm : pj.2 ∈ rest.map Prod.snd := List.mem_map_of_mem Prod.snd hpj
          rw [hc] at hm
          exact hsnd'.1 hm
        simpa [outputOf] using outputOf_extendAt_not_mem arr j pl rest hrest
    · -- the entry for path p lies further down the dict
      have hq_ne : q ≠ p := by
        intro hc
        have hm : p ∈ rest.map Prod.fst := List.mem_map_of_mem Prod.fst hx
        rw [← hc] at hm
        exact hfst'.1 hm
      have hk_ne : k ≠ j := by
        intro hc
        have hm : j ∈ rest.map Prod.snd := List.mem_map_of_mem Prod.snd hx
        rw [← hc] at hm
        exact hsnd'.1 hm
      simp only [outputOf, List.map_cons, extendEntry, hqk, if_neg hq_ne]
      refine List.cons_eq_cons.mpr ⟨?_, ?_⟩
      · rw [extendAt_getD_ne arr j k pl hk_ne]
      · have := ih hx hfst'.2 hsnd'.2
          (fun pj hpj => hpath pj (List.mem_cons_of_mem _ hpj))
        simpa [outputOf] using this

/-- Whether the spec accumulator read back from the dict has an entry for a
path is decided by the dict lookup. -/
theorem hasPath_outputOf (arr : List SearchResult) (order : List (String × Nat))
    (hpath : ∀ pj ∈ order, (arr.getD pj.2 dummyResult).path = pj.1)
    (q : String) :
    hasPath (outputOf arr order) q = true ↔ ∃ pj ∈ order, pj.1 = q := by
  simp only [hasPath, outputOf, List.any_eq_true, List.mem_map]
  constructor
  · rintro ⟨e, ⟨pj, hpj, rfl⟩, he⟩
    exact ⟨pj, hpj, by rw [← hpath pj hpj]; exact of_decide_eq_true he⟩
  · rintro ⟨pj, hpj, rfl⟩
    exact ⟨arr.getD pj.2 dummyResult, ⟨pj, hpj, rfl⟩,
      decide_eq_true (hpath pj hpj)⟩

/-- Master invariant of the merge loop: reading the merged dict back from the
working list after the loop finishes gives exactly the spec-level merge of the
remaining results into the accumulator read back before the loop. -/
theorem grLoop_mergeAux (rest : List SearchResult) :
    ∀ (arr : List SearchResult) (i : Nat) (order : List (String × Nat)),
    arr.drop i = rest →
    (∀ pj ∈ order, pj.2 < i) →
    (order.map Prod.fst).Nodup →
    (order.map Prod.snd).Nodup →
    (∀ pj ∈ order, (arr.getD pj.2 dummyResult).path = pj.1) →
    outputOf (grLoop arr rest i order).1 (grLoop arr rest i order).2 =
      mergeAux (outputOf arr order) rest := by
  induction rest with
  | nil => intro arr i order _ _ _ _ _; rfl
  | cons r rest' ih =>
    intro arr i order hdrop hlt hfst hsnd hpath
    have hi_lt : i < arr.length := by
      have := congrArg List.length hdrop
      rw [List.length_drop] at this
      simp only [List.length_cons] at this
      omega
    have hget_i : arr.getD i dummyResult = r := by
      have h0 : arr[i + 0]? = some r := by
        rw [← List.getElem?_drop, hdrop]
        simp
      rw [Nat.add_zero] at h0
      rw [List.getD_eq_getElem?_getD, h0]
      rfl
    have hdrop' : arr.drop (i + 1) = rest' := by
      have : (arr.drop i).drop 1 = arr.drop (i + 1) := List.drop_drop 1 i arr
      rw [hdrop] at this
      simpa using this.symm
    simp only [grLoop, mergeAux]
    cases hlk : lookupIdx order r.path with
    | none =>
      have hnot : ∀ pj ∈ order, pj.1 ≠ r.path := lookupIdx_none order r.path hlk
      have hhas : hasPath (outputOf arr order) r.path = false := by
        by_contra hc
        have : hasPath (outputOf arr order) r.path = true := by
          revert hc; cases hasPath (outputOf arr order) r.path <;> simp
        obtain ⟨pj, hpj, hpj1⟩ := (hasPath_outputOf arr order hpath r.path).mp this
        exact hnot pj hpj hpj1
      rw [hhas]
      simp only [Bool.false_eq_true, if_false]
      have hres := ih arr (i + 1) (order ++ [(r.path, i)]) hdrop'
        (by
          intro pj hpj
          rcases List.mem_append.mp hpj with h1 | h1
          · exact Nat.lt_succ_of_lt (hlt pj h1)
          · simp only [List.mem_singleton] at h1
            subst h1
            exact Nat.lt_succ_self i)
        (by
          rw [List.map_append, List.nodup_append]
          refine ⟨hfst, by simp, ?_⟩
          intro a ha hb
          simp only [List.map_cons, List.map_nil, List.mem_singleton] at hb
          obtain ⟨pj, hpj, rfl⟩ := List.mem_map.mp ha
          exact hnot pj hpj hb)
        (by
          rw [List.map_append, List.nodup_append]
          refine ⟨hsnd, by simp, ?_⟩
          intro a ha hb
          simp only [List.map_cons, List.map_nil, List.mem_singleton] at hb
          obtain ⟨pj, hpj, rfl⟩ := List.mem_map.mp ha
          have := hlt pj hpj
          omega)
        (by
          intro pj hpj
          rcases List.mem_append.mp hpj with h1 | h1
          · exact hpath pj h1
          · simp only [List.mem_singleton] at h1
            subst h1
            simpa using congrArg SearchResult.path hget_i)
      rw [hres, outputOf_append, hget_i]
    | some j =>
      have hj_mem : (r.path, j) ∈ order := lookupIdx_mem order r.path j hlk
      have hj_lt : j < arr.length := lt_trans (hlt _ hj_mem) hi_lt
      have hhas : hasPath (outputOf arr order) r.path = true :=
        (hasPath_outputOf arr order hpath r.path).mpr ⟨(r.path, j), hj_mem, rfl⟩
      rw [hhas]
      simp only [if_true]
      have hres := ih (extendAt arr j r.payload) (i + 1) order
        (by rw [extendAt_drop arr j (i + 1) r.payload
          (Nat.lt_succ_of_lt (hlt _ hj_mem))]; exact hdrop')
        (fun pj hpj => Nat.lt_succ_of_lt (hlt pj hpj))
        hfst hsnd
        (by
          intro pj hpj
          rw [extendAt_path]
          exact hpath pj hpj)
      rw [hres, outputOf_extendAt order arr j r.path r.payload hj_mem hfst hsnd
        hpath hj_lt]

/-- A single get_results call returns exactly the spec-level merge of the
accumulated results: one entry per distinct path in first-seen order, first
result kept, later payloads appended. -/
theorem get_results_eq_mergeSpec (rs : List SearchResult) :
    (get_results rs).2 = mergeSpec rs := by
  have := grLoop_mergeAux rs rs 0 [] (by simp) (by simp) (by simp) (by simp)
    (by simp)
  simpa [get_results, mergeSpec, outputOf] using this

/-! get_results on a result list whose paths are pairwise distinct. -/

theorem lookupIdx_none_of (order : List (String × Nat)) (q : String)
    (h : ∀ pj ∈ order, pj.1 ≠ q) : lookupIdx order q = none := by
  induction order with
  | nil => rfl
  | cons x rest ih =>
    simp only [lookupIdx]
    rw [if_neg (h x (List.mem_cons_self _ _))]
    exact ih (fun pj hpj => h pj (List.mem_cons_of_mem x hpj))

theorem grLoop_state_of_distinct (rest : List SearchResult) :
    ∀ (arr : List SearchResult) (i : Nat) (order : List (String × Nat)),
    (∀ pj ∈ order, ∀ r ∈ rest, pj.1 ≠ r.path) →
    (rest.map SearchResult.path).Nodup →
    (grLoop arr rest i order).1 = arr := by
  induction rest with
  | nil => intro arr i order _ _; rfl
  | cons r rest' ih =>
    intro arr i order hdisj hnd
    have hlk : lookupIdx order r.path = none :=
      lookupIdx_none_of order r.path
        (fun pj hpj => hdisj pj hpj r (List.mem_cons_self _ _))
    have hnd' := hnd
    rw [List.map_cons, List.nodup_cons] at hnd'
    simp only [grLoop, hlk]
    exact ih arr (i + 1) (order ++ [(r.path, i)])
      (by
        intro pj hpj r' hr'
        rcases List.mem_append.mp hpj with h1 | h1
        · exact hdisj pj h1 r' (List.mem_cons_of_mem r hr')
        · simp only [List.mem_singleton] at h1
          subst h1
          intro hc
          have hm : r'.path ∈ rest'.map SearchResult.path :=
            List.mem_map_of_mem SearchResult.path hr'
          rw [← hc] at hm
          exact hnd'.1 hm)
      hnd'.2

theorem mergeAux_of_distinct (rest : List SearchResult) :
    ∀ acc : List SearchResult,
    (∀ e ∈ acc, ∀ r ∈ rest, e.path ≠ r.path) →
    (rest.map SearchResult.path).Nodup →
    mergeAux acc rest = acc ++ rest := by
  induction rest with
  | nil => intro acc _ _; simp [mergeAux]
  | cons r rest' ih =>
    intro acc hdisj hnd
    have hnd' := hnd
    rw [List.map_cons, List.nodup_cons] at hnd'
    have hhas : hasPath acc r.path = false := by
      rw [hasPath]
      rw [List.any_eq_false]
      intro e he
      simpa using hdisj e he r (List.mem_cons_self _ _)
    simp only [mergeAux, hhas, Bool.false_eq_true, if_false]
    rw [ih (acc ++ [r])
      (by
        intro e he r' hr'
        rcases List.mem_append.mp he with h1 | h1
        · exact hdisj e h1 r' (List.mem_cons_of_mem r hr')
        · simp only [List.mem_singleton] at h1
          subst h1
          intro hc
          have hm : r'.path ∈ rest'.map SearchResult.path :=
            List.mem_map_of_mem SearchResult.path hr'
          rw [← hc] at hm
          exact hnd'.1 hm)
      hnd'.2]
    simp

theorem mergeSpec_of_distinct (rs : List SearchResult)
    (h : (rs.map SearchResult.path).Nodup) : mergeSpec rs = rs := by
  rw [mergeSpec, mergeAux_of_distinct rs [] (by simp) h]
  simp

/-! ### Facts about the indexing loop -/

theorem cveLoop_mono (chunks : List Chunk) :
    ∀ (analyzed : List String) (ads : List CacheChunkFn) (x : String),
    x ∈ analyzed → x ∈ (cveLoop chunks analyzed ads).2.1 := by
  induction chunks with
  | nil => intro analyzed ads x h; simpa [cveLoop] using h
  | cons c rest ih =>
    intro analyzed ads x h
    simp only [cveLoop]
    by_cases hmem : c.chunk_id ∈ analyzed
    · rw [if_pos hmem]
      exact ih analyzed ads x h
    · rw [if_neg hmem]
      rcases add_to_collection ads c with ⟨r1, n⟩
      cases r1 with
      | error e => exact h
      | ok u => exact ih (c.chunk_id :: analyzed) ads x (List.mem_cons_of_mem _ h)

theorem cveLoop_ok_mem (chunks : List Chunk) :
    ∀ (analyzed : List String) (ads : List CacheChunkFn),
    (cveLoop chunks analyzed ads).1 = Except.ok () →
    ∀ c ∈ chunks, c.chunk_id ∈ (cveLoop chunks analyzed ads).2.1 := by
  induction chunks with
  | nil => intro analyzed ads _ c hc; simp at hc
  | cons c rest ih =>
    intro analyzed ads hok c' hc'
    simp only [cveLoop] at hok ⊢
    by_cases hmem : c.chunk_id ∈ analyzed
    · rw [if_pos hmem] at hok ⊢
      rcases List.mem_cons.mp hc' with h1 | h1
      · subst h1
        exact cveLoop_mono rest analyzed ads c'.chunk_id hmem
      · exact ih analyzed ads hok c' h1
    · rw [if_neg hmem] at hok ⊢
      rcases hadd : add_to_collection ads c with ⟨r1, n⟩
      cases r1 with
      | error e =>
        rw [hadd] at hok
        have hbad : (Except.error c.chunk_id : Except String Unit) =
            Except.ok () := hok
        exact absurd hbad (by simp)
      | ok u =>
        rw [hadd] at hok
        have hok' : (cveLoop rest (c.chunk_id :: analyzed) ads).1 =
            Except.ok () := hok
        rcases List.mem_cons.mp hc' with h1 | h1
        · subst h1
          exact cveLoop_mono rest (c'.chunk_id :: analyzed) ads c'.chunk_id
            (List.mem_cons_self _ _)
        · exact ih (c.chunk_id :: analyzed) ads hok' c' h1

theorem cveLoop_all_skipped (chunks : List Chunk) :
    ∀ (analyzed : List String) (ads : List CacheChunkFn),
    (∀ c ∈ chunks, c.chunk_id ∈ analyzed) →
    cveLoop chunks analyzed ads = (Except.ok (), analyzed, 0) := by
  induction chunks with
  | nil => intro analyzed ads _; rfl
  | cons c rest ih =>
    intro analyzed ads h
    simp only [cveLoop]
    rw [if_pos (h c (List.mem_cons_self _ _))]
    exact ih analyzed ads (fun c' hc' => h c' (List.mem_cons_of_mem c hc'))

theorem cveLoop_error_not_mem (chunks : List Chunk) :
    ∀ (analyzed : List String) (ads : List CacheChunkFn) (cid : String),
    (cveLoop chunks analyzed ads).1 = Except.error cid →
    cid ∉ (cveLoop chunks analyzed ads).2.1 := by
  induction chunks with
  | nil => intro analyzed ads cid h; simp [cveLoop] at h
  | cons c rest ih =>
    intro analyzed ads cid h
    simp only [cveLoop] at h ⊢
    by_cases hmem : c.chunk_id ∈ analyzed
    · rw [if_pos hmem] at h ⊢
      exact ih analyzed ads cid h
    · rw [if_neg hmem] at h ⊢
      rcases hadd : add_to_collection ads c with ⟨r1, n⟩
      cases r1 with
      | error e =>
        rw [hadd] at h
        have h' : (Except.error c.chunk_id : Except String Unit) =
            Except.error cid := h
        injection h' with h'
        subst h'
        exact hmem
      | ok u =>
        rw [hadd] at h
        have h' : (cveLoop rest (c.chunk_id :: analyzed) ads).1 =
            Except.error cid := h
        exact ih (c.chunk_id :: analyzed) ads cid h'

/-! ### Facts about adapter dispatch and the query fan-out -/

theorem add_to_collection_all_ok (ads : List CacheChunkFn) (c : Chunk)
    (h : ∀ a ∈ ads, a c = Except.ok ()) :
    add_to_collection ads c = (Except.ok (), ads.length) := by
  induction ads with
  | nil => rfl
  | cons a rest ih =>
    simp only [add_to_collection]
    rw [h a (List.mem_cons_self _ _),
      ih (fun a' ha' => h a' (List.mem_cons_of_mem a ha'))]
    simp

theorem add_to_collection_error (pre : List CacheChunkFn) (f : CacheChunkFn)
    (post : List CacheChunkFn) (c : Chunk)
    (hpre : ∀ a ∈ pre, a c = Except.ok ())
    (hf : f c = Except.error ()) :
    add_to_collection (pre ++ f :: post) c =
      (Except.error (), pre.length + 1) := by
  induction pre with
  | nil =>
    simp only [List.nil_append, add_to_collection]
    rw [hf]
    rfl
  | cons a pre' ih =>
    simp only [List.cons_append, add_to_collection]
    rw [hpre a (List.mem_cons_self _ _)]
    simp only [List.append_eq]
    rw [ih (fun a' ha' => hpre a' (List.mem_cons_of_mem a ha'))]
    simp

theorem fetch_ignores_old_results (syncs asyncs : List FetchFn) (q : String)
    (old1 old2 : List SearchResult) :
    fetch syncs asyncs q old1 = fetch syncs asyncs q old2 := rfl

theorem fetch_ok_results (syncs asyncs : List FetchFn) (q : String)
    (old A B : List SearchResult)
    (h1 : fetchSyncs syncs q = (Except.ok (), A))
    (h2 : gatherAsyncs asyncs q = Except.ok B) :
    fetch syncs asyncs q old = (Except.ok (), A ++ B) := by
  simp [fetch, h1, h2]

theorem fetch_sync_error (syncs asyncs : List FetchFn) (q : String)
    (old A : List SearchResult) (e : Unit)
    (h1 : fetchSyncs syncs q = (Except.error e, A)) :
    fetch syncs asyncs q old = (Except.error e, A) := by
  simp [fetch, h1]

theorem fetch_async_error (syncs asyncs : List FetchFn) (q : String)
    (old A : List SearchResult) (e : Unit)
    (h1 : fetchSyncs syncs q = (Except.ok (), A))
    (h2 : gatherAsyncs asyncs q = Except.error e) :
    fetch syncs asyncs q old = (Except.error e, A) := by
  simp [fetch, h1, h2]

/-! ### Facts about the project identity text and hash -/

/-- Value of a most-significant-first decimal digit list. -/
def digitsVal (ds : List Nat) : Nat := ds.foldl (fun a d => a * 10 + d) 0

theorem digitsVal_append (ds : List Nat) (d : Nat) :
    digitsVal (ds ++ [d]) = digitsVal ds * 10 + d := by
  simp [digitsVal, List.foldl_append]

theorem natDigits_val : ∀ (fuel n : Nat), n < fuel →
    digitsVal (natDigits fuel n) = n := by
  intro fuel
  induction fuel with
  | zero => intro n h; omega
  | succ fuel ih =>
    intro n h
    simp only [natDigits]
    by_cases h10 : n < 10
    · rw [if_pos h10]
      simp [digitsVal]
    · rw [if_neg h10, digitsVal_append, ih (n / 10) (by omega)]
      omega

theorem natDigits_lt : ∀ (fuel n d : Nat), d ∈ natDigits fuel n → d < 10 := by
  intro fuel
  induction fuel with
  | zero => intro n d h; simp [natDigits] at h
  | succ fuel ih =>
    intro n d h
    simp only [natDigits] at h
    by_cases h10 : n < 10
    · rw [if_pos h10] at h
      simp only [List.mem_singleton] at h
      omega
    · rw [if_neg h10] at h
      rcases List.mem_append.mp h with h1 | h1
      · exact ih _ _ h1
      · simp only [List.mem_singleton] at h1
        omega

theorem digitChar_inj : ∀ d < 10, ∀ e < 10,
    Char.ofNat (48 + d) = Char.ofNat (48 + e) → d = e := by decide

theorem digitChar_ne_newline : ∀ d < 10,
    Char.ofNat (48 + d) ≠ ('\n' : Char) := by decide

theorem map_digitChar_inj : ∀ l1 l2 : List Nat,
    (∀ d ∈ l1, d < 10) → (∀ d ∈ l2, d < 10) →
    l1.map (fun d => Char.ofNat (48 + d)) =
      l2.map (fun d => Char.ofNat (48 + d)) → l1 = l2 := by
  intro l1
  induction l1 with
  | nil =>
    intro l2 _ _ h
    cases l2 with
    | nil => rfl
    | cons b bs => simp at h
  | cons a as ih =>
    intro l2 h1 h2 h
    cases l2 with
    | nil => simp at h
    | cons b bs =>
      simp only [List.map_cons] at h
      injection h with hab hrest
      have hab' := digitChar_inj a (h1 a (List.mem_cons_self _ _))
        b (h2 b (List.mem_cons_self _ _)) hab
      rw [hab', ih bs (fun d hd => h1 d (List.mem_cons_of_mem a hd))
        (fun d hd => h2 d (List.mem_cons_of_mem b hd)) hrest]

theorem natDecimal_inj (m n : Nat) (h : natDecimal m = natDecimal n) :
    m = n := by
  have hd : natDigits (m + 1) m = natDigits (n + 1) n :=
    map_digitChar_inj _ _ (fun d hd => natDigits_lt _ _ _ hd)
      (fun d hd => natDigits_lt _ _ _ hd) h
  have hm := natDigits_val (m + 1) m (by omega)
  have hn := natDigits_val (n + 1) n (by omega)
  rw [hd, hn] at hm
  omega

theorem newline_not_mem_natDecimal (n : Nat) :
    ('\n' : Char) ∉ natDecimal n := by
  intro h
  obtain ⟨d, hd, heq⟩ := List.mem_map.mp h
  exact digitChar_ne_newline d (natDigits_lt _ _ _ hd) heq

/-- Token lists followed by a separator character that occurs in neither
token are equal when the full lists are. -/
theorem append_sep_inj (c : Char) : ∀ (l1 l2 r1 r2 : List Char),
    c ∉ l1 → c ∉ l2 → l1 ++ c :: r1 = l2 ++ c :: r2 → l1 = l2 := by
  intro l1
  induction l1 with
  | nil =>
    intro l2 r1 r2 _ h2 heq
    cases l2 with
    | nil => rfl
    | cons b bs =>
      simp only [List.nil_append, List.cons_append] at heq
      injection heq with hb _
      exact absurd (hb ▸ List.mem_cons_self b bs) h2
  | cons a as ih =>
    intro l2 r1 r2 h1 h2 heq
    cases l2 with
    | nil =>
      simp only [List.cons_append, List.nil_append] at heq
      injection heq with hb _
      exact absurd (hb.symm ▸ List.mem_cons_self a as) h1
    | cons b bs =>
      simp only [List.cons_append] at heq
      injection heq with hab hrest
      rw [hab, ih bs r1 r2 (fun hc => h1 (List.mem_cons_of_mem a hc))
        (fun hc => h2 (List.mem_cons_of_mem b hc)) hrest]

/-- Distinct versions produce distinct hashed texts for the same path: the
decimal rendering of the version sits between fixed context whose following
character, a newline, never occurs in a decimal rendering. -/
theorem hashText_version_injective (v1 v2 : Nat) (p : String)
    (hne : v1 ≠ v2) : hashText v1 p ≠ hashText v2 p := by
  intro heq
  apply hne
  have hdata : (hashText v1 p).data = (hashText v2 p).data := by rw [heq]
  simp only [hashText, String.data_append, List.append_assoc] at hdata
  have hdata' := List.append_cancel_left hdata
  simp only [List.cons_append] at hdata'
  exact natDecimal_inj v1 v2
    (append_sep_inj '\n' (natDecimal v1) (natDecimal v2) _ _
      (newline_not_mem_natDecimal v1) (newline_not_mem_natDecimal v2) hdata')

/-! ### Claims -/

/-- C1: get_results returns exactly one entry per distinct path: the first
result observed for a path becomes that path's entry, every later result for
the same path has its payload appended (never overwritten), entries appear
in first-seen insertion order; on [a:[1], b:[2], a:[3]] it returns
[a:[1,3], b:[2]]. -/
theorem c1_get_results_one_entry_per_path :
    (∀ rs : List SearchResult, (get_results rs).2 = mergeSpec rs) ∧
      (get_results
          [{ path := "a", payload := [1] }, { path := "b", payload := [2] },
            { path := "a", payload := [3] }]).2 =
        [{ path := "a", payload := [1, 3] }, { path := "b", payload := [2] }] :=
  ⟨get_results_eq_mergeSpec, by decide⟩

/-- C2: running analyze_codebase twice with no change to the repository
state performs zero cache_chunk calls during the second run: every chunk id
in the window is already in chunks_already_analyzed and is skipped. -/
theorem c2_second_analysis_run_calls_no_adapter (files : List File)
    (ads : List CacheChunkFn) (s : EngineState)
    (h : (Engine.analyze_codebase files ads s).1 = Except.ok ()) :
    (Engine.analyze_codebase files ads
        (Engine.analyze_codebase files ads s).2.1).2.2 = 0 := by
  simp only [Engine.analyze_codebase, create_vector_embeddings] at h ⊢
  rw [cveLoop_all_skipped (chunks_to_process files) _ ads
    (fun c hc => cveLoop_ok_mem (chunks_to_process files)
      s.chunks_already_analyzed ads h c hc)]

/-- Witness for C2 at a one-file, one-chunk repository with one succeeding
adapter. -/
theorem c2_second_analysis_run_calls_no_adapter_witness :
    (Engine.analyze_codebase [{ chunks := [{ chunk_id := "x" }] }]
        [fun _ => Except.ok ()]
        { query_string := "", results := [], chunks_already_analyzed := [] }).1 =
      Except.ok () ∧
    (Engine.analyze_codebase [{ chunks := [{ chunk_id := "x" }] }]
        [fun _ => Except.ok ()]
        (Engine.analyze_codebase [{ chunks := [{ chunk_id := "x" }] }]
          [fun _ => Except.ok ()]
          { query_string := "", results := [],
            chunks_already_analyzed := [] }).2.1).2.2 = 0 :=
  ⟨rfl, c2_second_analysis_run_calls_no_adapter _ _ _ rfl⟩

set_option maxRecDepth 100000 in
/-- C3 counterexample: for 201 ranked one-chunk files the code analyzes
chunks from max(40, int(201 * 0.2)) = 40 files, while the claimed formula
max(40, ceil(0.2 * 201)) capped at 201 gives 41. -/
theorem c3_window_formula_counterexample :
    (chunks_to_process
        (List.replicate 201 { chunks := [{ chunk_id := "c" }] })).length = 40 ∧
      min (spec_window 201) 201 = 41 ∧
      (chunks_to_process
          (List.replicate 201 { chunks := [{ chunk_id := "c" }] })).length ≠
        min (spec_window 201) 201 := by
  decide

set_option maxRecDepth 100000 in
/-- C3 amended: analysis enumerates chunks from exactly the first
max(40, floor(0.2 * total)) ranked files, capped at the number of available
files; for total = 10 all 10 files are analyzed and for total = 1000
exactly 200 files are analyzed. -/
theorem c3_analysis_window_floor :
    (∀ files : List File,
      chunks_to_process files =
        ((files.take (minimum_files_to_analyze files.length)).map
            File.get_chunks).flatten) ∧
    (∀ files : List File,
      (files.take (minimum_files_to_analyze files.length)).length =
        min (max 40 (files.length / 5)) files.length) ∧
    (chunks_to_process
        (List.replicate 10 { chunks := [{ chunk_id := "c" }] })).length = 10 ∧
    (chunks_to_process
        (List.replicate 1000 { chunks := [{ chunk_id := "c" }] })).length =
      200 := by
  refine ⟨fun files => rfl, fun files => ?_, by decide, by decide⟩
  rw [List.length_take, minimum_files_to_analyze]

/-- C4 counterexample: with a failing first adapter and a succeeding second
adapter, _add_to_collection dispatches the chunk to only 1 of the 2
registered adapters: the error propagates and the loop never reaches the
second adapter. -/
theorem c4_failure_stops_dispatch_counterexample :
    (add_to_collection
        [fun _ => Except.error (), fun _ => Except.ok ()]
        { chunk_id := "c" }).2 = 1 ∧
      ([fun _ => Except.error (), fun _ => Except.ok ()] :
        List CacheChunkFn).length = 2 :=
  ⟨rfl, rfl⟩

/-- C4 amended: adapter dispatch for a chunk is sequential and the first
failing cache_chunk call aborts the loop: adapters before the failing one
have received the chunk, adapters after it never do; only when every
adapter succeeds does each registered adapter receive the chunk. -/
theorem c4_first_failure_aborts_dispatch :
    (∀ (pre : List CacheChunkFn) (f : CacheChunkFn)
        (post : List CacheChunkFn) (c : Chunk),
      (∀ a ∈ pre, a c = Except.ok ()) → f c = Except.error () →
      add_to_collection (pre ++ f :: post) c =
        (Except.error (), pre.length + 1)) ∧
    (∀ (ads : List CacheChunkFn) (c : Chunk),
      (∀ a ∈ ads, a c = Except.ok ()) →
      add_to_collection ads c = (Except.ok (), ads.length)) :=
  ⟨add_to_collection_error, add_to_collection_all_ok⟩

/-- Witness for C4's amended statement: one succeeding adapter, then a
failing one, then one more that is never reached. -/
theorem c4_first_failure_aborts_dispatch_witness :
    add_to_collection
        ([fun _ => Except.ok ()] ++
          (fun _ => Except.error ()) :: [fun _ => Except.ok ()])
        { chunk_id := "c" } = (Except.error (), 2) :=
  c4_first_failure_aborts_dispatch.1 [fun _ => Except.ok ()]
    (fun _ => Except.error ()) [fun _ => Except.ok ()] { chunk_id := "c" }
    (by
      intro a ha
      simp only [List.mem_singleton] at ha
      subst ha
      rfl)
    rfl

/-- C5: when dispatching a chunk raises, that chunk's id is not added to
chunks_already_analyzed — the marker is recorded only after dispatch
completes — so the chunk stays eligible for retry on the next run. -/
theorem c5_failed_chunk_not_marked_analyzed (files : List File)
    (ads : List CacheChunkFn) (s : EngineState) (cid : String)
    (h : (Engine.analyze_codebase files ads s).1 = Except.error cid) :
    cid ∉ (Engine.analyze_codebase files ads s).2.1.chunks_already_analyzed := by
  simp only [Engine.analyze_codebase, create_vector_embeddings] at h ⊢
  exact cveLoop_error_not_mem _ _ _ _ h

/-- Witness for C5: a single chunk whose dispatch fails. -/
theorem c5_failed_chunk_not_marked_analyzed_witness :
    (Engine.analyze_codebase [{ chunks := [{ chunk_id := "x" }] }]
        [fun _ => Except.error ()]
        { query_string := "", results := [], chunks_already_analyzed := [] }).1 =
      Except.error "x" ∧
    "x" ∉ (Engine.analyze_codebase [{ chunks := [{ chunk_id := "x" }] }]
        [fun _ => Except.error ()]
        { query_string := "", results := [],
          chunks_already_analyzed := [] }).2.1.chunks_already_analyzed :=
  ⟨rfl, c5_failed_chunk_not_marked_analyzed _ _ _ _ rfl⟩

/-- C6 counterexample: with a failing background adapter registered next to
a succeeding one, fetch does not complete — it propagates the error — and
the succeeding adapter's results are not accumulated, instead of the
failing adapter contributing an empty result set. -/
theorem c6_adapter_failure_aborts_fetch_counterexample :
    (fetch []
        [fun _ => Except.error (),
          fun _ => Except.ok [{ path := "a", payload := [1] }]] "q" []).1 =
      Except.error () ∧
    (fetch []
        [fun _ => Except.error (),
          fun _ => Except.ok [{ path := "a", payload := [1] }]] "q" []).2 =
      [] :=
  ⟨rfl, rfl⟩

/-- C6 amended: an adapter fetch failure aborts the whole query: a blocking
adapter's error propagates with only the earlier blocking adapters' results
accumulated, and a background error propagates with only the blocking
results accumulated (background results are discarded). -/
theorem c6_fetch_propagates_adapter_error :
    (∀ (syncs asyncs : List FetchFn) (q : String)
        (old A : List SearchResult) (e : Unit),
      fetchSyncs syncs q = (Except.error e, A) →
      fetch syncs asyncs q old = (Except.error e, A)) ∧
    (∀ (syncs asyncs : List FetchFn) (q : String)
        (old A : List SearchResult) (e : Unit),
      fetchSyncs syncs q = (Except.ok (), A) →
      gatherAsyncs asyncs q = Except.error e →
      fetch syncs asyncs q old = (Except.error e, A)) :=
  ⟨fetch_sync_error, fetch_async_error⟩

/-- Witness for C6's amended statement: one failing blocking adapter. -/
theorem c6_fetch_propagates_adapter_error_witness :
    fetch [fun _ => Except.error ()] [] "q" [] = (Except.error (), []) :=
  c6_fetch_propagates_adapter_error.1 [fun _ => Except.error ()] [] "q" [] []
    () rfl

set_option maxRecDepth 100000 in
/-- C7: the project identity hash is a deterministic function of only the
normalized absolute repository path and the cache format version: engines
with identical path and version compute the identical cache location;
engines with different format_version constants hash different identity
texts for the same path, and for the code's constant 15 against its
successor 16 the sha256 digests, and hence the cache locations, are
distinct. -/
theorem c7_project_identity_hash (cache_root : String) :
    (∀ (version : Nat) (p1 p2 : String), p1 = p2 →
      get_cache_folder cache_root version p1 =
        get_cache_folder cache_root version p2) ∧
    (∀ (v1 v2 : Nat) (p : String), v1 ≠ v2 →
      hashText v1 p ≠ hashText v2 p) ∧
    get_project_hash CACHE_FORMAT_VERSION "/repo" ≠
      get_project_hash (CACHE_FORMAT_VERSION + 1) "/repo" ∧
    get_cache_folder cache_root CACHE_FORMAT_VERSION "/repo" ≠
      get_cache_folder cache_root (CACHE_FORMAT_VERSION + 1) "/repo" := by
  have hashne : get_project_hash CACHE_FORMAT_VERSION "/repo" ≠
      get_project_hash (CACHE_FORMAT_VERSION + 1) "/repo" := by decide
  refine ⟨fun version p1 p2 h => by rw [h], hashText_version_injective,
    hashne, ?_⟩
  intro heq
  apply hashne
  have hd := congrArg String.data heq
  simp only [get_cache_folder, String.data_append] at hd
  exact String.ext (List.append_cancel_left hd)

/-- Witness for C7 at a concrete root, path and version pair. -/
theorem c7_project_identity_hash_witness :
    get_cache_folder "root" 15 "/repo" = get_cache_folder "root" 15 "/repo" ∧
      hashText 15 "/repo" ≠ hashText 16 "/repo" :=
  ⟨(c7_project_identity_hash "root").1 15 "/repo" "/repo" rfl,
    (c7_project_identity_hash "root").2.1 15 16 "/repo" (by decide)⟩

/-- C8 counterexample: on accumulated results [a:[1], b:[2], a:[3]],
get_results mutates the stored first result for path a in place, and a
second call returns [a:[1,3,3], b:[2]] instead of the first call's
[a:[1,3], b:[2]]: the transform is not side-effect-free. -/
theorem c8_get_results_not_pure_counterexample :
    (get_results
        [{ path := "a", payload := [1] }, { path := "b", payload := [2] },
          { path := "a", payload := [3] }]).1 ≠
      [{ path := "a", payload := [1] }, { path := "b", payload := [2] },
        { path := "a", payload := [3] }] ∧
    (get_results
        ((get_results
          [{ path := "a", payload := [1] }, { path := "b", payload := [2] },
            { path := "a", payload := [3] }]).1)).2 ≠
      (get_results
        [{ path := "a", payload := [1] }, { path := "b", payload := [2] },
          { path := "a", payload := [3] }]).2 := by
  decide

/-- C8 amended: get_results leaves the accumulated result list unchanged
and repeated calls return equal outputs provided no two accumulated results
share a path; with duplicated paths the merge extends the first stored
result object in place, so repeated calls return growing payloads. -/
theorem c8_get_results_pure_on_distinct_paths (rs : List SearchResult)
    (h : (rs.map SearchResult.path).Nodup) :
    (get_results rs).1 = rs ∧
      (get_results ((get_results rs).1)).2 = (get_results rs).2 := by
  have hstate : (get_results rs).1 = rs := by
    simp only [get_results]
    exact grLoop_state_of_distinct rs rs 0 []
      (by intro pj hpj; simp at hpj) h
  exact ⟨hstate, by rw [hstate]⟩

/-- Witness for C8's amended statement at a duplicate-free result list. -/
theorem c8_get_results_pure_on_distinct_paths_witness :
    (([{ path := "a", payload := [1] }, { path := "b", payload := [2] }] :
        List SearchResult).map SearchResult.path).Nodup ∧
    ((get_results
        [{ path := "a", payload := [1] }, { path := "b", payload := [2] }]).1 =
      [{ path := "a", payload := [1] }, { path := "b", payload := [2] }] ∧
    (get_results
        ((get_results
          [{ path := "a", payload := [1] },
            { path := "b", payload := [2] }]).1)).2 =
      (get_results
        [{ path := "a", payload := [1] }, { path := "b", payload := [2] }]).2) :=
  ⟨by decide, c8_get_results_pure_on_distinct_paths _ (by decide)⟩

/-- C9: chunks_already_analyzed only grows: query, fetch and get_results
leave it untouched, and analyze_codebase never removes an entry. -/
theorem c9_chunks_already_analyzed_only_grows (s : EngineState) :
    (∀ q, (Engine.query s q).chunks_already_analyzed =
      s.chunks_already_analyzed) ∧
    (∀ syncs asyncs, ((Engine.fetch syncs asyncs s).2).chunks_already_analyzed =
      s.chunks_already_analyzed) ∧
    ((Engine.get_results s).1.chunks_already_analyzed =
      s.chunks_already_analyzed) ∧
    (∀ files ads x, x ∈ s.chunks_already_analyzed →
      x ∈ ((Engine.analyze_codebase files ads s).2.1).chunks_already_analyzed) := by
  refine ⟨fun q => rfl, fun syncs asyncs => rfl, rfl, ?_⟩
  intro files ads x hx
  exact cveLoop_mono _ _ _ _ hx

/-- Witness for C9 at a state already holding one analyzed chunk id. -/
theorem c9_chunks_already_analyzed_only_grows_witness :
    "x" ∈ ((Engine.analyze_codebase [] []
        { query_string := "", results := [],
          chunks_already_analyzed := ["x"] }).2.1).chunks_already_analyzed :=
  (c9_chunks_already_analyzed_only_grows
    { query_string := "", results := [],
      chunks_already_analyzed := ["x"] }).2.2.2 [] [] "x" (by decide)

/-- C10: fetch first resets the accumulated result list, so the new result
state depends only on the query string and the adapters — results of an
earlier fetch never appear — and on success it holds exactly the blocking
adapters' results followed by the background adapters' results. -/
theorem c10_fetch_resets_results (syncs asyncs : List FetchFn) :
    (∀ s1 s2 : EngineState, s1.query_string = s2.query_string →
      (Engine.fetch syncs asyncs s1).2.results =
        (Engine.fetch syncs asyncs s2).2.results) ∧
    (∀ (s : EngineState) (A B : List SearchResult),
      fetchSyncs syncs s.query_string = (Except.ok (), A) →
      gatherAsyncs asyncs s.query_string = Except.ok B →
      (Engine.fetch syncs asyncs s).2.results = A ++ B) := by
  constructor
  · intro s1 s2 hq
    simp only [Engine.fetch]
    rw [hq]
    exact congrArg Prod.snd
      (fetch_ignores_old_results syncs asyncs s2.query_string s1.results
        s2.results)
  · intro s A B h1 h2
    simp only [Engine.fetch]
    rw [fetch_ok_results syncs asyncs s.query_string s.results A B h1 h2]

/-- Witness for C10: a stale result sits in _results and is replaced by the
adapters' results for the current query. -/
theorem c10_fetch_resets_results_witness :
    (Engine.fetch [fun _ => Except.ok [{ path := "a", payload := [1] }]] []
        { query_string := "q",
          results := [{ path := "old", payload := [9] }],
          chunks_already_analyzed := [] }).2.results =
      [{ path := "a", payload := [1] }] :=
  (c10_fetch_resets_results _ _).2 _ [{ path := "a", payload := [1] }] []
    rfl rfl

end Codector
